import Mathlib

/-!
# A verification development for the `schemagen` JSON-schema generator

`schemagen` walks a directory tree of JSON Schema documents, resolves
`$ref` references of the form `#/definitions/<name>` against a pool of
named definitions loaded from a `definitions.json` file, injects the
referenced definitions into each schema under a reserved `definitions`
key, and routes the serialized result to a per-service blob store.

This file embeds the core of the generator shallowly:

* JSON values become the inductive `Json`; Go's `map[string]interface{}`
  becomes an association list `List (String × Json)` whose lookup/insert
  operations (`lookupA`, `insertA`) mirror Go map semantics (unique keys:
  insert replaces an existing binding).
* `findReferences`, `makeDefinitions`, `loadDefinitions`,
  `dumpToTmpDirs` are translated function by function from the source.
* The `filepath.Walk` traversal driven by `walkFunc` becomes a fold
  (`runWalk`) of a step function (`walkStep`) over the list of visited
  paths in walk order; the filesystem is presented as that list of
  `Entry` values (path string, directory flag, base name, whether the
  directory holds its own `definitions.json`, and the parsed content of
  files).
* The portion of `Generate` up to and including the walk becomes
  `generateRun`; the later emission phases (gobindata, `bind.go`) are
  external collaborators outside the modelled core.
-/

/-- Untyped JSON values, the image of Go's `interface{}` after
`json.Unmarshal`: `null`, booleans, numbers, strings, arrays and
objects.  Objects are association lists (Go: `map[string]interface{}`);
numbers are modelled as integers, since no behaviour of the generator
depends on numeric values. -/
inductive Json where
  | null : Json
  | bool (b : Bool) : Json
  | num (n : Int) : Json
  | str (s : String) : Json
  | arr (elems : List Json) : Json
  | obj (entries : List (String × Json)) : Json

/-- Go map read `m[k]`: first binding of `k`, if any.  Association lists
produced by `json.Unmarshal` have unique keys, so "first" is "the". -/
def lookupA {α : Type} : List (String × α) → String → Option α
  | [], _ => none
  | (k, v) :: rest, n => if k = n then some v else lookupA rest n

/-- Go map write `m[k] = v`: replace the binding of `k` if present,
otherwise append a new one. -/
def insertA {α : Type} : List (String × α) → String → α → List (String × α)
  | [], k, v => [(k, v)]
  | (k', v') :: rest, k, v =>
      if k' = k then (k, v) :: rest else (k', v') :: insertA rest k v

/-- Errors produced by the walk.  Each constructor corresponds to one
`fmt.Errorf` format string of the source (`missingDefinitionsErr`,
`missingOneDefinitionErr`, `schemaHasDefinitionsErr`) or to a read/parse
failure of a schema file. -/
inductive GenError where
  | missingDefinitions : GenError
  | missingOneDefinition (name : String) : GenError
  | schemaHasDefinitions (fileName : String) : GenError
  | parseError : GenError
  deriving DecidableEq

/-- Model of `strings.Split(s, "/")`: cut `s` at every `/`.  Splitting the empty
string yields `[""]`, as in Go. -/
def splitSlashAux : List Char → List Char → List String
  | [], acc => [String.mk acc.reverse]
  | c :: rest, acc =>
      if c = '/' then String.mk acc.reverse :: splitSlashAux rest []
      else splitSlashAux rest (c :: acc)

/-- Model of `strings.Split(s, "/")`. -/
def splitSlash (s : String) : List String :=
  splitSlashAux s.toList []

mutual

/-- Function `findReferences` from the source: iterate over the entries of an
object, handling each member with `findRefsVal` and concatenating the
results (Go appends them into one slice). -/
def findReferences : List (String × Json) → List String
  | [] => []
  | (name, cont) :: rest => findRefsVal name cont ++ findReferences rest

/-- The body of `findReferences`' loop, one member at a time: recurse
into map-valued members; for a string-valued member whose key is
exactly `$ref`, split the value on `/` and record the third token when
the split is exactly `#`, `definitions`, `<name>`.  Arrays, numbers,
booleans and nulls fall through Go's `switch` on the reflected kind and
contribute nothing. -/
def findRefsVal : String → Json → List String
  | _, Json.obj inner => findReferences inner
  | name, Json.str v =>
      if name = "$ref" then
        match splitSlash v with
        | [t0, t1, t2] => if t0 = "#" ∧ t1 = "definitions" then [t2] else []
        | _ => []
      else []
  | _, _ => []

end

/-- The lookup loop of `makeDefinitions`: extract each requested name
from the pool, failing at the first absent one. -/
def extractDefs (defs : List (String × Json)) :
    List String → List (String × Json) → Except GenError (List (String × Json))
  | [], acc => Except.ok acc
  | tok :: rest, acc =>
      match lookupA defs tok with
      | none => Except.error (GenError.missingOneDefinition tok)
      | some content => extractDefs defs rest (insertA acc tok content)

/-- Function `makeDefinitions` from the source.  The pool `s.definitions` is a Go
map that is `nil` when no definitions file was successfully loaded;
`none` models the nil map and `some defs` a loaded (possibly empty)
map.  The guard is a verbatim translation of
`s.definitions == nil || (len(s.definitions) == 0 && len(req) != 0)`. -/
def makeDefinitions (definitions : Option (List (String × Json)))
    (req : List String) : Except GenError (List (String × Json)) :=
  match definitions with
  | none => Except.error GenError.missingDefinitions
  | some defs =>
      if defs.length = 0 ∧ req.length ≠ 0 then
        Except.error GenError.missingDefinitions
      else extractDefs defs req []

/-! ## Path-string helpers

The walk manipulates paths as plain strings, exactly as the source does
(`strings.HasPrefix`, `filepath.Base`, `filepath.Dir`, `filepath.Ext`,
`strings.TrimSuffix`, `filepath.Join`).  The models below agree with the
Go functions on the cleaned, slash-separated, non-empty paths the walk
produces (`filepath.Walk` hands `walkFunc` cleaned paths). -/

/-- Model of `strings.HasPrefix s pre`. -/
def goHasPrefix (s pre : String) : Bool :=
  pre.toList.isPrefixOf s.toList

/-- Model of `filepath.Base` on a cleaned path: the part after the final slash. -/
def goBase (s : String) : String :=
  match (splitSlash s).getLast? with
  | none => "."
  | some b => b

/-- Model of `filepath.Dir` on a cleaned path: the part before the final slash,
or `.` when there is none. -/
def goDir (s : String) : String :=
  let parts := splitSlash s
  if parts.length ≤ 1 then "." else String.intercalate "/" parts.dropLast

/-- Model of `filepath.Ext`: the suffix starting at the final dot, or `""`. -/
def extOf (s : String) : String :=
  let r := s.toList.reverse
  let pre := r.takeWhile (fun c => c ≠ '.')
  if pre.length = r.length then "" else String.mk ('.' :: pre.reverse)

/-- Model of `strings.TrimSuffix`. -/
def goTrimSuffix (s suf : String) : String :=
  if suf.toList.isSuffixOf s.toList then
    String.mk (s.toList.take (s.toList.length - suf.toList.length))
  else s

/-! ## Serialization

`json.Marshal` writes object members in sorted key order.  String
escaping is elided: the documents this development evaluates contain no
characters Go's encoder escapes. -/

/-- Comparator used for marshalling order: byte-wise `≤` on keys. -/
def keyLe (a b : String) : Bool :=
  match compare a b with
  | Ordering.gt => false
  | _ => true

/-- Insert an entry into a key-sorted list of entries. -/
def insertSorted (p : String × Json) : List (String × Json) → List (String × Json)
  | [] => [p]
  | q :: rest => if keyLe p.1 q.1 then p :: q :: rest else q :: insertSorted p rest

/-- Sort object entries by key, as `json.Marshal` does for Go maps. -/
def sortByKey : List (String × Json) → List (String × Json)
  | [] => []
  | p :: rest => insertSorted p (sortByKey rest)

theorem sizeOf_insertSorted (p : String × Json) (l : List (String × Json)) :
    sizeOf (insertSorted p l) = sizeOf (p :: l) := by
  induction l with
  | nil => rfl
  | cons q rest ih =>
      simp only [insertSorted]
      split
      · rfl
      · simp only [List.cons.sizeOf_spec, ih]
        omega

theorem sizeOf_sortByKey (l : List (String × Json)) :
    sizeOf (sortByKey l) = sizeOf l := by
  induction l with
  | nil => rfl
  | cons p rest ih =>
      simp only [sortByKey, sizeOf_insertSorted, List.cons.sizeOf_spec, ih]

mutual

/-- Model of `json.Marshal` on a JSON value (modulo string escaping). -/
def serializeJson : Json → String
  | Json.null => "null"
  | Json.bool true => "true"
  | Json.bool false => "false"
  | Json.num n => toString n
  | Json.str s => "\"" ++ s ++ "\""
  | Json.arr xs => "[" ++ serializeArr xs ++ "]"
  | Json.obj es => "\x7b" ++ serializeObj (sortByKey es) ++ "\x7d"
termination_by j => sizeOf j
decreasing_by
  · simp_wf
  · simp_wf
    simp only [sizeOf_sortByKey]
    omega

/-- Comma-separated serialization of array elements. -/
def serializeArr : List Json → String
  | [] => ""
  | [x] => serializeJson x
  | x :: y :: rest => serializeJson x ++ "," ++ serializeArr (y :: rest)
termination_by l => sizeOf l
decreasing_by all_goals simp_wf <;> omega

/-- Comma-separated serialization of (already sorted) object members. -/
def serializeObj : List (String × Json) → String
  | [] => ""
  | [(k, v)] => "\"" ++ k ++ "\":" ++ serializeJson v
  | (k, v) :: q :: rest =>
      "\"" ++ k ++ "\":" ++ serializeJson v ++ "," ++ serializeObj (q :: rest)
termination_by l => sizeOf l
decreasing_by all_goals simp_wf <;> omega

end

/-! ## The blob store and `dumpToTmpDirs`

Each service owns one temporary directory; a resolved schema's bytes are
written to the file named by its basename inside that directory.  The
store is modelled as an association list from `(service, baseName)` keys
to the current file contents.  `os.OpenFile` is called with
`O_RDWR|O_CREATE` and **without** `O_TRUNC`, and `file.Write` starts at
offset 0: writing to an existing file replaces its first `new.length`
bytes and leaves any longer tail in place.  `overwriteBytes` captures
exactly that. -/

/-- Keyed blob store: `(service, baseName) ↦ file bytes` (bytes as a
string of characters). -/
abbrev Store : Type := List ((String × String) × String)

/-- Store lookup, same first-binding semantics as `lookupA`. -/
def storeGet : Store → String × String → Option String
  | [], _ => none
  | (k, v) :: rest, key => if k = key then some v else storeGet rest key

/-- Store update: replace the binding of an existing key. -/
def storePut : Store → String × String → String → Store
  | [], key, v => [(key, v)]
  | (k', v') :: rest, key, v =>
      if k' = key then (key, v) :: rest else (k', v') :: storePut rest key v

/-- Writing `new` from offset 0 into a file currently holding `old`,
with no truncation. -/
def overwriteBytes (old new : String) : String :=
  new ++ String.mk (old.toList.drop new.toList.length)

/-- The `(service, baseName)` key `dumpToTmpDirs` files a payload under:
`service` is `filepath.Base(filepath.Dir(path))`, or the declared
package name under merge; `baseName` is the origin filename with its
`.json` suffix trimmed. -/
def dumpKey (merge : Bool) (pkg : String) (path : String) : String × String :=
  ((if merge then pkg else goBase (goDir path)), goTrimSuffix (goBase path) ".json")

/-- Function `dumpToTmpDirs` from the source, at the level of the blob store: the
payload lands under `dumpKey`; a fresh key creates the file, an existing
key is re-opened without truncation and overwritten from offset 0. -/
def dumpToTmpDirs (merge : Bool) (pkg : String) (store : Store)
    (path : String) (data : String) : Store :=
  let key := dumpKey merge pkg path
  match storeGet store key with
  | none => store ++ [(key, data)]
  | some old => storePut store key (overwriteBytes old data)

/-! ## Loading the definitions pool -/

/-- Errors of `loadDefinitions`: the `ioutil.ReadFile` failure (file
absent), the `json.Unmarshal` failure (bytes not a valid JSON object),
and the failed assertion that the top-level `definitions` member is an
object (`noDefinitionsErr`). -/
inductive LoadError where
  | notFound : LoadError
  | parseError : LoadError
  | missingDefinitionsKey : LoadError
  deriving DecidableEq

/-- The state of the `definitions.json` file at a directory, as the
loader observes it: absent (read fails), unparsable (including a
non-object top level, which also makes `json.Unmarshal` into a map
fail), or a parsed top-level object. -/
inductive DefsFileState where
  | absent : DefsFileState
  | invalid : DefsFileState
  | parsed (top : List (String × Json)) : DefsFileState

/-- Function `loadDefinitions` from the source: read, unmarshal, then require the
top-level `definitions` member to be an object; that object becomes the
pool.  On any failure the pool field stays `nil` (`none`): the read and
unmarshal failures leave it untouched and the failed type assertion
assigns the assertion's zero value. -/
def loadDefinitions : DefsFileState → Except LoadError (List (String × Json))
  | DefsFileState.absent => Except.error LoadError.notFound
  | DefsFileState.invalid => Except.error LoadError.parseError
  | DefsFileState.parsed top =>
      match lookupA top "definitions" with
      | some (Json.obj defs) => Except.ok defs
      | _ => Except.error LoadError.missingDefinitionsKey

/-! ## The walk -/

/-- One path visited by `filepath.Walk`, together with what the
callback observes there: `path` as handed to `walkFunc`, `isDir` and
`name` from the `os.FileInfo`, `hasOwnDefs` the outcome of the
`os.Stat(filepath.Join(path, definitionsFile))` test
(`err == nil || !os.IsNotExist(err)`), and for files the parsed object
(`none` when the read fails or the bytes are not a JSON object). -/
structure Entry where
  path : String
  isDir : Bool
  name : String
  hasOwnDefs : Bool
  content : Option (List (String × Json))

/-- Mutable state threaded through `walkFunc`: the `ignDir` shadow
marker and the blob store fed by `dumpToTmpDirs`. -/
structure WalkState where
  ignDir : String
  store : Store
  deriving DecidableEq

/-- The per-file body of `walkFunc` for a schema file: scan for
references, extract them from the pool, reject a pre-existing
`definitions` member, inject the extracted mapping.  Returns the
resolved document.  The order is the source's: `makeDefinitions` runs
before the `definitions`-key check. -/
def processFile (pool : Option (List (String × Json))) (fileName : String)
    (doc : List (String × Json)) : Except GenError (List (String × Json)) :=
  match makeDefinitions pool (findReferences doc) with
  | Except.error er => Except.error er
  | Except.ok defs =>
      if (lookupA doc "definitions").isSome then
        Except.error (GenError.schemaHasDefinitions fileName)
      else Except.ok (insertA doc "definitions" (Json.obj defs))

/-- One invocation of the closure returned by `walkFunc`, for one
visited path.  Line for line: the `ignDir` prefix skip; the
own-`definitions.json` directory test installing a new `ignDir`; the
reset `ignDir = ""`; and the schema-file branch (name not
`definitions.json`, extension `.json`): read and parse, resolve via
`processFile`, marshal, route via `dumpToTmpDirs`. -/
def walkStep (defFile : String) (pool : Option (List (String × Json)))
    (merge : Bool) (pkg : String) (st : WalkState) (e : Entry) :
    Except GenError WalkState :=
  if st.ignDir ≠ "" ∧ goHasPrefix e.path st.ignDir then Except.ok st
  else if e.isDir ∧ e.hasOwnDefs ∧ e.path ++ "/" ++ "definitions.json" ≠ defFile then
    Except.ok { st with ignDir := e.path }
  else
    if e.name ≠ "definitions.json" ∧ extOf e.name = ".json" then
      match e.content with
      | none => Except.error GenError.parseError
      | some doc =>
          match processFile pool e.name doc with
          | Except.error er => Except.error er
          | Except.ok resolved =>
              Except.ok ⟨"", dumpToTmpDirs merge pkg st.store e.path
                (serializeJson (Json.obj resolved))⟩
    else Except.ok { st with ignDir := "" }

/-- Model of `filepath.Walk`: apply `walkStep` to each visited path in walk
order, stopping at the first error, which aborts the walk. -/
def runWalk (defFile : String) (pool : Option (List (String × Json)))
    (merge : Bool) (pkg : String) :
    WalkState → List Entry → Except GenError WalkState
  | st, [] => Except.ok st
  | st, e :: rest =>
      match walkStep defFile pool merge pkg st e with
      | Except.error er => Except.error er
      | Except.ok st' => runWalk defFile pool merge pkg st' rest

/-- The load-and-walk portion of `Generate`: `s.pkg` becomes the
basename of the output directory, `s.defFile` the root's
`definitions.json`; the result of `loadDefinitions` is **logged and
dropped** on failure (the `err` variable is overwritten by the
`filepath.Walk` call), so a failed load leaves the pool `nil` and the
walk proceeds.  The emission phases that follow the walk are outside
the modelled core. -/
def generateRun (schemaInBase : String) (defsFile : DefsFileState)
    (merge : Bool) (schemaOutBase : String) (entries : List Entry) :
    Except GenError WalkState :=
  let pkg := goBase schemaOutBase
  let defFile := schemaInBase ++ "/" ++ "definitions.json"
  let pool := (loadDefinitions defsFile).toOption
  runWalk defFile pool merge pkg ⟨"", []⟩ entries

/-! ## Association-list lemmas -/

theorem lookupA_insertA {α : Type} (m : List (String × α)) (k : String) (v : α)
    (n : String) :
    lookupA (insertA m k v) n = if k = n then some v else lookupA m n := by
  induction m with
  | nil => simp [insertA, lookupA]
  | cons hd rest ih =>
      obtain ⟨k', v'⟩ := hd
      by_cases hk : k' = k
      · subst hk
        simp only [insertA, if_pos rfl, lookupA]
        by_cases hn : k' = n
        · simp [hn]
        · simp [hn]
      · simp only [insertA, if_neg hk, lookupA]
        by_cases hn : k' = n
        · subst hn
          have : ¬ k = k' := fun h => hk h.symm
          simp [this]
        · simp [hn, ih]

/-- Specification of the extraction loop of `makeDefinitions`: when
every requested name is present in the pool, it succeeds, the requested
names are bound to the pool's entries, and names never requested keep
whatever binding the accumulator gave them. -/
theorem extractDefs_ok (defs : List (String × Json)) (req : List String)
    (acc : List (String × Json))
    (hall : ∀ n ∈ req, (lookupA defs n).isSome) :
    ∃ m, extractDefs defs req acc = Except.ok m ∧
      ∀ n, lookupA m n = if n ∈ req then lookupA defs n else lookupA acc n := by
  induction req generalizing acc with
  | nil => exact ⟨acc, rfl, fun n => by simp⟩
  | cons tok rest ih =>
      have htok : (lookupA defs tok).isSome := hall tok (by simp)
      obtain ⟨content, hc⟩ := Option.isSome_iff_exists.mp htok
      obtain ⟨m, hm, hspec⟩ := ih (insertA acc tok content)
        (fun n hn => hall n (by simp [hn]))
      refine ⟨m, ?_, ?_⟩
      · simp only [extractDefs, hc]
        exact hm
      · intro n
        rw [hspec n]
        by_cases hmem : n ∈ rest
        · simp [hmem]
        · by_cases hn : n = tok
          · subst hn
            simp [hmem, lookupA_insertA, hc]
          · have : ¬ tok = n := fun h => hn h.symm
            simp [hmem, hn, lookupA_insertA, this]

/-- Claim C3: for every present non-empty pool and every requested name
list whose names all occur in the pool, resolution succeeds and returns
a mapping whose key set is exactly the set of requested names, each name
bound to a verbatim copy of the pool's entry; a pool entry that was not
requested is never included (minimality). -/
theorem C3_makeDefinitions_exact (defs : List (String × Json)) (req : List String)
    (hne : defs ≠ [])
    (hall : ∀ n ∈ req, (lookupA defs n).isSome) :
    ∃ m, makeDefinitions (some defs) req = Except.ok m ∧
      ∀ n, lookupA m n = if n ∈ req then lookupA defs n else none := by
  obtain ⟨m, hm, hspec⟩ := extractDefs_ok defs req [] hall
  refine ⟨m, ?_, fun n => ?_⟩
  · simp only [makeDefinitions]
    rw [if_neg]
    · exact hm
    · rintro ⟨h0, -⟩
      exact hne (List.length_eq_zero.mp h0)
  · simpa [lookupA] using hspec n

/-- Witness for `C3_makeDefinitions_exact` on the pool
`{a:1, b:2, c:3}` and the request `[a, b]`. -/
theorem C3_makeDefinitions_exact_witness :
    (([("a", Json.num 1), ("b", Json.num 2), ("c", Json.num 3)] : List (String × Json)) ≠ []
      ∧ ∀ n ∈ ["a", "b"],
          (lookupA [("a", Json.num 1), ("b", Json.num 2), ("c", Json.num 3)] n).isSome)
    ∧ ∃ m, makeDefinitions
        (some [("a", Json.num 1), ("b", Json.num 2), ("c", Json.num 3)]) ["a", "b"]
          = Except.ok m ∧
        ∀ n, lookupA m n = if n ∈ ["a", "b"]
          then lookupA [("a", Json.num 1), ("b", Json.num 2), ("c", Json.num 3)] n
          else none :=
  ⟨⟨List.cons_ne_nil _ _, by decide⟩,
    C3_makeDefinitions_exact _ _ (List.cons_ne_nil _ _) (by decide)⟩

/-- Claim C4 (code-bug evidence): the claim states that resolving an empty requested-name
list against an absent (never-loaded) pool succeeds trivially.  The code
disagrees: `makeDefinitions` rejects a `nil` pool unconditionally, even
when no definition is requested — `s.definitions == nil` short-circuits
the `len(req) != 0` test, which guards only the empty-but-loaded pool.
The second conjunct shows the empty loaded pool behaving as the claim
describes, isolating the `nil`-pool case as the divergence; this
contradicts the loader's own documentation ("If this function fails the
program will not parse schema files which contain '$ref' field"),
which promises that schemas without `$ref` still process. -/
theorem C4_makeDefinitions_nil_pool :
    makeDefinitions none [] = Except.error GenError.missingDefinitions
    ∧ makeDefinitions (some []) [] = Except.ok [] :=
  ⟨rfl, rfl⟩

/-! ## The reference scan, characterized -/

/-- The spec's description of a collected reference, stated as a
predicate: some key reachable from the document by recursing through
object-valued members only is exactly `$ref`, with a string value that
splits on `/` into exactly the three tokens `#`, `definitions`,
`<name>`. -/
inductive HasRef : List (String × Json) → String → Prop where
  | here {entries : List (String × Json)} {v n : String} :
      ("$ref", Json.str v) ∈ entries →
      splitSlash v = ["#", "definitions", n] →
      HasRef entries n
  | nested {entries : List (String × Json)} {k : String}
      {inner : List (String × Json)} {n : String} :
      (k, Json.obj inner) ∈ entries →
      HasRef inner n →
      HasRef entries n

theorem hasRef_cons {rest : List (String × Json)} {n : String}
    (p : String × Json) (h : HasRef rest n) : HasRef (p :: rest) n := by
  cases h with
  | here hm hs => exact HasRef.here (List.mem_cons_of_mem _ hm) hs
  | nested hm hr => exact HasRef.nested (List.mem_cons_of_mem _ hm) hr

theorem findReferences_cons (name : String) (cont : Json)
    (rest : List (String × Json)) :
    findReferences ((name, cont) :: rest) = findRefsVal name cont ++ findReferences rest := rfl

theorem mem_findReferences_of_ref {v n : String} :
    ∀ entries : List (String × Json), ("$ref", Json.str v) ∈ entries →
      splitSlash v = ["#", "definitions", n] → n ∈ findReferences entries := by
  intro entries
  induction entries with
  | nil => intro h; cases h
  | cons hd rest ih =>
      intro hm hs
      rcases List.mem_cons.mp hm with heq | hmem
      · subst heq
        simp [findReferences_cons, findRefsVal, hs]
      · obtain ⟨name, cont⟩ := hd
        simp [findReferences_cons, ih hmem hs]

theorem mem_findReferences_of_obj {k : String} {inner : List (String × Json)}
    {n : String} :
    ∀ entries : List (String × Json), (k, Json.obj inner) ∈ entries →
      n ∈ findReferences inner → n ∈ findReferences entries := by
  intro entries
  induction entries with
  | nil => intro h; cases h
  | cons hd rest ih =>
      intro hm hinner
      rcases List.mem_cons.mp hm with heq | hmem
      · subst heq
        simp [findReferences_cons, findRefsVal, hinner]
      · obtain ⟨name, cont⟩ := hd
        simp [findReferences_cons, ih hmem hinner]

theorem mem_findReferences_of_hasRef {entries : List (String × Json)} {n : String}
    (h : HasRef entries n) : n ∈ findReferences entries := by
  induction h with
  | here hm hs => exact mem_findReferences_of_ref _ hm hs
  | nested hm _ ih => exact mem_findReferences_of_obj _ hm ih

theorem hasRef_of_mem_findReferences :
    ∀ (entries : List (String × Json)) (n : String),
      n ∈ findReferences entries → HasRef entries n
  | [], _, h => by cases h
  | (name, Json.obj inner) :: rest, n, h => by
      rw [findReferences_cons] at h
      rcases List.mem_append.mp h with hl | hr
      · exact HasRef.nested (List.mem_cons_self _ _)
          (hasRef_of_mem_findReferences inner n hl)
      · exact hasRef_cons _ (hasRef_of_mem_findReferences rest n hr)
  | (name, Json.str v) :: rest, n, h => by
      rw [findReferences_cons] at h
      rcases List.mem_append.mp h with hl | hr
      · simp only [findRefsVal] at hl
        split at hl
        · rename_i hname
          split at hl
          · rename_i t0 t1 t2 heq
            split at hl
            · rename_i hcond
              have hn : n = t2 := by
                cases hl with
                | head => rfl
                | tail _ hx => cases hx
              subst hname
              refine HasRef.here (List.mem_cons_self _ _) ?_
              rw [heq, hcond.1, hcond.2, hn]
            · cases hl
          · cases hl
        · cases hl
      · exact hasRef_cons _ (hasRef_of_mem_findReferences rest n hr)
  | (name, Json.null) :: rest, n, h => by
      rw [findReferences_cons] at h
      rcases List.mem_append.mp h with hl | hr
      · cases hl
      · exact hasRef_cons _ (hasRef_of_mem_findReferences rest n hr)
  | (name, Json.bool b) :: rest, n, h => by
      rw [findReferences_cons] at h
      rcases List.mem_append.mp h with hl | hr
      · cases hl
      · exact hasRef_cons _ (hasRef_of_mem_findReferences rest n hr)
  | (name, Json.num m) :: rest, n, h => by
      rw [findReferences_cons] at h
      rcases List.mem_append.mp h with hl | hr
      · cases hl
      · exact hasRef_cons _ (hasRef_of_mem_findReferences rest n hr)
  | (name, Json.arr xs) :: rest, n, h => by
      rw [findReferences_cons] at h
      rcases List.mem_append.mp h with hl | hr
      · cases hl
      · exact hasRef_cons _ (hasRef_of_mem_findReferences rest n hr)
termination_by entries => sizeOf entries
decreasing_by all_goals simp_wf <;> omega

/-- Claim C6: the reference scan collects a name `n` if and only if some
key reachable by recursing through object-valued members only is
exactly `$ref` with a string value splitting on `/` into exactly the
three tokens `#`, `definitions`, `n` (`HasRef`); any other `$ref` shape
is ignored without error (the scan is total), and — as the second
conjunct illustrates — a `$ref` nested inside an array element is never
collected, since `HasRef` cannot pass through an array. -/
theorem C6_findReferences_characterization :
    (∀ (entries : List (String × Json)) (n : String),
        n ∈ findReferences entries ↔ HasRef entries n)
    ∧ findReferences
        [("items", Json.arr [Json.obj [("$ref", Json.str "#/definitions/id")]])] = [] :=
  ⟨fun entries n =>
    ⟨hasRef_of_mem_findReferences entries n, mem_findReferences_of_hasRef⟩, rfl⟩

/-! ## Walk-step lemmas -/

theorem runWalk_cons (defFile : String) (pool : Option (List (String × Json)))
    (merge : Bool) (pkg : String) (st : WalkState) (e : Entry) (rest : List Entry) :
    runWalk defFile pool merge pkg st (e :: rest) =
      match walkStep defFile pool merge pkg st e with
      | Except.error er => Except.error er
      | Except.ok st' => runWalk defFile pool merge pkg st' rest := rfl

/-- A path under the active shadow marker is skipped: the state — the
marker and the blob store — is returned untouched, whatever the entry
holds. -/
theorem walkStep_skip (defFile : String) (pool : Option (List (String × Json)))
    (merge : Bool) (pkg : String) (st : WalkState) (e : Entry)
    (h1 : st.ignDir ≠ "") (h2 : goHasPrefix e.path st.ignDir = true) :
    walkStep defFile pool merge pkg st e = Except.ok st := by
  unfold walkStep
  rw [if_pos ⟨h1, h2⟩]

/-- An unshadowed directory owning a `definitions.json` other than the
run's root one installs itself as the shadow marker; the store is
untouched. -/
theorem walkStep_shadow (defFile : String) (pool : Option (List (String × Json)))
    (merge : Bool) (pkg : String) (st : WalkState) (e : Entry)
    (h1 : ¬(st.ignDir ≠ "" ∧ goHasPrefix e.path st.ignDir = true))
    (h2 : e.isDir = true) (h3 : e.hasOwnDefs = true)
    (h4 : e.path ++ "/" ++ "definitions.json" ≠ defFile) :
    walkStep defFile pool merge pkg st e = Except.ok { st with ignDir := e.path } := by
  unfold walkStep
  rw [if_neg h1, if_pos ⟨h2, h3, h4⟩]

/-- An unshadowed schema file (named `*.json`, not `definitions.json`)
is read, resolved and routed; its outcome is that of `processFile`. -/
theorem walkStep_schema (defFile : String) (pool : Option (List (String × Json)))
    (merge : Bool) (pkg : String) (st : WalkState) (e : Entry)
    (doc : List (String × Json)) (nm : String) (hname : e.name = nm)
    (h1 : ¬(st.ignDir ≠ "" ∧ goHasPrefix e.path st.ignDir = true))
    (h2 : ¬(e.isDir = true ∧ e.hasOwnDefs = true ∧
        e.path ++ "/" ++ "definitions.json" ≠ defFile))
    (h3 : e.name ≠ "definitions.json") (h4 : extOf e.name = ".json")
    (h5 : e.content = some doc) :
    walkStep defFile pool merge pkg st e =
      match processFile pool nm doc with
      | Except.error er => Except.error er
      | Except.ok resolved => Except.ok ⟨"", dumpToTmpDirs merge pkg st.store e.path
          (serializeJson (Json.obj resolved))⟩ := by
  unfold walkStep
  rw [if_neg h1, if_neg h2, if_pos ⟨h3, h4⟩, h5, hname]

theorem runWalk_step_ok {defFile : String} {pool : Option (List (String × Json))}
    {merge : Bool} {pkg : String} {st : WalkState} {e : Entry}
    {rest : List Entry} {out : Except GenError WalkState} (st' : WalkState)
    (h : walkStep defFile pool merge pkg st e = Except.ok st')
    (h2 : runWalk defFile pool merge pkg st' rest = out) :
    runWalk defFile pool merge pkg st (e :: rest) = out := by
  rw [runWalk_cons, h]
  exact h2

theorem runWalk_step_err {defFile : String} {pool : Option (List (String × Json))}
    {merge : Bool} {pkg : String} {st : WalkState} {e : Entry}
    {rest : List Entry} {er : GenError}
    (h : walkStep defFile pool merge pkg st e = Except.error er) :
    runWalk defFile pool merge pkg st (e :: rest) = Except.error er := by
  rw [runWalk_cons, h]

/-- Any other unshadowed path (a directory without its own non-root
`definitions.json`, the `definitions.json` file itself, a non-`.json`
file) just clears the marker. -/
theorem walkStep_plain (defFile : String) (pool : Option (List (String × Json)))
    (merge : Bool) (pkg : String) (st : WalkState) (e : Entry)
    (h1 : ¬(st.ignDir ≠ "" ∧ goHasPrefix e.path st.ignDir = true))
    (h2 : ¬(e.isDir = true ∧ e.hasOwnDefs = true ∧
        e.path ++ "/" ++ "definitions.json" ≠ defFile))
    (h3 : ¬(e.name ≠ "definitions.json" ∧ extOf e.name = ".json")) :
    walkStep defFile pool merge pkg st e = Except.ok { st with ignDir := "" } := by
  unfold walkStep
  rw [if_neg h1, if_neg h2, if_neg h3]

theorem goHasPrefix_refl (s : String) : goHasPrefix s s = true := by
  simp [goHasPrefix, List.isPrefixOf_iff_prefix]

/-- While the marker is a non-empty `d`, every path prefixed by `d` is
passed over without touching the state. -/
theorem runWalk_skip_shadowed (defFile : String)
    (pool : Option (List (String × Json))) (merge : Bool) (pkg : String)
    (d : String) (hd : d ≠ "") :
    ∀ (sub : List Entry) (store : Store),
      (∀ e ∈ sub, goHasPrefix e.path d = true) →
      runWalk defFile pool merge pkg ⟨d, store⟩ sub = Except.ok ⟨d, store⟩ := by
  intro sub
  induction sub with
  | nil => intro store _; rfl
  | cons e rest ih =>
      intro store h
      rw [runWalk_cons,
        walkStep_skip defFile pool merge pkg ⟨d, store⟩ e hd (h e (List.mem_cons_self _ _))]
      exact ih store (fun x hx => h x (List.mem_cons_of_mem _ hx))

/-- Claim C2: when the walk enters a directory that contains its own
definitions file and that file is not the one that established the
active scope (the run's `defFile`), the whole subtree beneath it is
skipped by this pass: the walk neither errors nor touches the blob
store for any entry under that directory — regardless of what those
entries contain, so nothing beneath is read, scanned, resolved or
routed. -/
theorem C2_shadowed_subtree_skipped (defFile : String)
    (pool : Option (List (String × Json))) (merge : Bool) (pkg : String)
    (store : Store) (dE : Entry) (sub : List Entry)
    (hdir : dE.isDir = true) (hdefs : dE.hasOwnDefs = true)
    (hnotscope : dE.path ++ "/" ++ "definitions.json" ≠ defFile)
    (hne : dE.path ≠ "")
    (hsub : ∀ e ∈ sub, goHasPrefix e.path dE.path = true) :
    runWalk defFile pool merge pkg ⟨"", store⟩ (dE :: sub) =
      Except.ok ⟨dE.path, store⟩ := by
  rw [runWalk_cons, walkStep_shadow defFile pool merge pkg ⟨"", store⟩ dE
    (by rintro ⟨hc, -⟩; exact hc rfl) hdir hdefs hnotscope]
  exact runWalk_skip_shadowed defFile pool merge pkg dE.path hne sub store hsub

/-- Witness for `C2_shadowed_subtree_skipped`: the walk rooted at `A`
(whose scope file is `A/definitions.json`) enters `A/sub`, which owns
`A/sub/definitions.json`; the parseable schema file `A/sub/x.json`
beneath it is skipped and the store stays empty. -/
theorem C2_shadowed_subtree_skipped_witness :
    ((⟨"A/sub", true, "sub", true, none⟩ : Entry).path ++ "/" ++ "definitions.json"
        ≠ "A/definitions.json"
      ∧ ∀ e ∈ [(⟨"A/sub/definitions.json", false, "definitions.json", false, none⟩ : Entry),
               ⟨"A/sub/x.json", false, "x.json", false,
                 some [("$ref", Json.str "#/definitions/id")]⟩],
          goHasPrefix e.path "A/sub" = true)
    ∧ runWalk "A/definitions.json" (some [("id", Json.num 1)]) false "out" ⟨"", []⟩
        [⟨"A/sub", true, "sub", true, none⟩,
         ⟨"A/sub/definitions.json", false, "definitions.json", false, none⟩,
         ⟨"A/sub/x.json", false, "x.json", false,
           some [("$ref", Json.str "#/definitions/id")]⟩]
        = Except.ok ⟨"A/sub", []⟩ :=
  ⟨⟨by decide, by decide⟩,
    C2_shadowed_subtree_skipped "A/definitions.json" (some [("id", Json.num 1)])
      false "out" [] ⟨"A/sub", true, "sub", true, none⟩ _
      rfl rfl (by decide) (by decide) (by decide)⟩

/-- Claim C10: once a directory `d` is the shadow marker, the skip test
is plain string-prefix comparison: any path whose string form extends
`d` — including a sibling such as `A/subextra` when `d = A/sub` — is
skipped with the state untouched.  At the first path that does not have
`d` as a string prefix the marker stops being `d`: it is cleared to
`""`, unless that path itself opens a new shadow scope, in which case
the marker becomes that path. -/
theorem C10_prefix_string_skip (defFile : String)
    (pool : Option (List (String × Json))) (merge : Bool) (pkg : String)
    (st : WalkState) (e : Entry) (d : String)
    (h1 : st.ignDir = d) (h2 : d ≠ "") :
    (goHasPrefix e.path d = true →
      walkStep defFile pool merge pkg st e = Except.ok st)
    ∧ (goHasPrefix e.path d = false →
        ∀ st', walkStep defFile pool merge pkg st e = Except.ok st' →
          st'.ignDir ≠ d
          ∧ (¬(e.isDir = true ∧ e.hasOwnDefs = true ∧
                e.path ++ "/" ++ "definitions.json" ≠ defFile) →
              st'.ignDir = "")) := by
  constructor
  · intro hp
    exact walkStep_skip defFile pool merge pkg st e (h1 ▸ h2) (h1 ▸ hp)
  · intro hp st' hok
    have hcond : ¬(st.ignDir ≠ "" ∧ goHasPrefix e.path st.ignDir = true) := by
      rintro ⟨-, hc⟩
      rw [h1, hp] at hc
      cases hc
    unfold walkStep at hok
    rw [if_neg hcond] at hok
    split at hok
    · rename_i hsh
      cases hok
      refine ⟨?_, fun hn => absurd hsh hn⟩
      show e.path ≠ d
      intro hpd
      rw [hpd, goHasPrefix_refl d] at hp
      cases hp
    · rename_i hsh
      split at hok
      · split at hok
        · cases hok
        · split at hok
          · cases hok
          · cases hok
            exact ⟨fun h => h2 h.symm, fun _ => rfl⟩
      · cases hok
        exact ⟨fun h => h2 h.symm, fun _ => rfl⟩

/-- Equation unfolding `generateRun`, with the pool made explicit. -/
theorem generateRun_eq (root out : String) (f : DefsFileState) (merge : Bool)
    (entries : List Entry) (pool : Option (List (String × Json)))
    (hp : (loadDefinitions f).toOption = pool) :
    generateRun root f merge out entries
      = runWalk (root ++ "/" ++ "definitions.json") pool merge (goBase out)
          ⟨"", []⟩ entries := by
  subst hp
  rfl

/-- Witness for `C10_prefix_string_skip` at `d = A/sub`: the sibling
path `A/subextra/cfg.json` — outside the `A/sub` directory but
extending its name as a string — is skipped, its parseable content
never processed. -/
theorem C10_prefix_string_skip_witness :
    ((⟨"A/sub", []⟩ : WalkState).ignDir = "A/sub" ∧ ("A/sub" : String) ≠ ""
      ∧ goHasPrefix "A/subextra/cfg.json" "A/sub" = true)
    ∧ walkStep "A/definitions.json" (some [("id", Json.num 1)]) false "out"
        ⟨"A/sub", []⟩
        ⟨"A/subextra/cfg.json", false, "cfg.json", false, some [("t", Json.str "o")]⟩
        = Except.ok ⟨"A/sub", []⟩ :=
  ⟨⟨rfl, by decide, by decide⟩,
    (C10_prefix_string_skip "A/definitions.json" (some [("id", Json.num 1)]) false "out"
      ⟨"A/sub", []⟩
      ⟨"A/subextra/cfg.json", false, "cfg.json", false, some [("t", Json.str "o")]⟩
      "A/sub" rfl (by decide)).1 (by decide)⟩

/-- Claim C1: for a tree `A/` holding `definitions.json` (pool `defsA`)
and a subdirectory `A/sub/` holding its own `definitions.json` (pool
`defsSub`) — the two pools arbitrary, so they may define overlapping
names — the generation pass rooted at `A` resolves the schema directly
under `A` against `A`'s pool and routes only that file, leaving
everything under `A/sub` untouched (it is never resolved against `A`'s
pool); the pass rooted at `A/sub`, whose scope file is
`A/sub/definitions.json`, resolves the schema under `A/sub` against
`A/sub`'s pool. -/
theorem C1_nested_scope_resolution (defsA defsSub docF docX rF rX : List (String × Json))
    (hF : processFile (some defsA) "f.json" docF = Except.ok rF)
    (hX : processFile (some defsSub) "x.json" docX = Except.ok rX) :
    generateRun "A" (DefsFileState.parsed [("definitions", Json.obj defsA)]) false "out"
      [⟨"A", true, "A", true, none⟩,
       ⟨"A/definitions.json", false, "definitions.json", false, none⟩,
       ⟨"A/f.json", false, "f.json", false, some docF⟩,
       ⟨"A/sub", true, "sub", true, none⟩,
       ⟨"A/sub/definitions.json", false, "definitions.json", false, none⟩,
       ⟨"A/sub/x.json", false, "x.json", false, some docX⟩]
      = Except.ok ⟨"A/sub", [(("A", "f"), serializeJson (Json.obj rF))]⟩
    ∧ generateRun "A/sub" (DefsFileState.parsed [("definitions", Json.obj defsSub)])
        false "out"
      [⟨"A/sub", true, "sub", true, none⟩,
       ⟨"A/sub/definitions.json", false, "definitions.json", false, none⟩,
       ⟨"A/sub/x.json", false, "x.json", false, some docX⟩]
      = Except.ok ⟨"", [(("sub", "x"), serializeJson (Json.obj rX))]⟩ := by
  constructor
  · rw [generateRun_eq "A" "out"
      (DefsFileState.parsed [("definitions", Json.obj defsA)]) false _ (some defsA) rfl]
    refine runWalk_step_ok ⟨"", []⟩ rfl ?_
    refine runWalk_step_ok ⟨"", []⟩ rfl ?_
    refine runWalk_step_ok ⟨"", dumpToTmpDirs false (goBase "out") []
      "A/f.json" (serializeJson (Json.obj rF))⟩ ?_ ?_
    · rw [walkStep_schema ("A" ++ "/" ++ "definitions.json") (some defsA) false
        (goBase "out") ⟨"", []⟩ ⟨"A/f.json", false, "f.json", false, some docF⟩
        docF "f.json" rfl (by simp) (by simp) (by simp) rfl rfl, hF]
    · rfl
  · rw [generateRun_eq "A/sub" "out"
      (DefsFileState.parsed [("definitions", Json.obj defsSub)]) false _ (some defsSub) rfl]
    refine runWalk_step_ok ⟨"", []⟩ rfl ?_
    refine runWalk_step_ok ⟨"", []⟩ rfl ?_
    refine runWalk_step_ok ⟨"", dumpToTmpDirs false (goBase "out") []
      "A/sub/x.json" (serializeJson (Json.obj rX))⟩ ?_ ?_
    · rw [walkStep_schema ("A/sub" ++ "/" ++ "definitions.json") (some defsSub) false
        (goBase "out") ⟨"", []⟩ ⟨"A/sub/x.json", false, "x.json", false, some docX⟩
        docX "x.json" rfl (by simp) (by simp) (by simp) rfl rfl, hX]
    · rfl

/-- Witness for `C1_nested_scope_resolution`: both pools define the same
name `id` (`A` maps it to `1`, `A/sub` to `2`); the file under `A` gets
`A`'s entry, the file under `A/sub` gets `A/sub`'s entry. -/
theorem C1_nested_scope_resolution_witness :
    (processFile (some [("id", Json.num 1)]) "f.json"
        [("$ref", Json.str "#/definitions/id")]
      = Except.ok [("$ref", Json.str "#/definitions/id"),
                   ("definitions", Json.obj [("id", Json.num 1)])]
      ∧ processFile (some [("id", Json.num 2)]) "x.json"
          [("$ref", Json.str "#/definitions/id")]
        = Except.ok [("$ref", Json.str "#/definitions/id"),
                     ("definitions", Json.obj [("id", Json.num 2)])])
    ∧ generateRun "A"
        (DefsFileState.parsed [("definitions", Json.obj [("id", Json.num 1)])])
        false "out"
        [⟨"A", true, "A", true, none⟩,
         ⟨"A/definitions.json", false, "definitions.json", false, none⟩,
         ⟨"A/f.json", false, "f.json", false,
           some [("$ref", Json.str "#/definitions/id")]⟩,
         ⟨"A/sub", true, "sub", true, none⟩,
         ⟨"A/sub/definitions.json", false, "definitions.json", false, none⟩,
         ⟨"A/sub/x.json", false, "x.json", false,
           some [("$ref", Json.str "#/definitions/id")]⟩]
        = Except.ok ⟨"A/sub", [(("A", "f"),
            serializeJson (Json.obj [("$ref", Json.str "#/definitions/id"),
              ("definitions", Json.obj [("id", Json.num 1)])]))]⟩
    ∧ generateRun "A/sub"
        (DefsFileState.parsed [("definitions", Json.obj [("id", Json.num 2)])])
        false "out"
        [⟨"A/sub", true, "sub", true, none⟩,
         ⟨"A/sub/definitions.json", false, "definitions.json", false, none⟩,
         ⟨"A/sub/x.json", false, "x.json", false,
           some [("$ref", Json.str "#/definitions/id")]⟩]
        = Except.ok ⟨"", [(("sub", "x"),
            serializeJson (Json.obj [("$ref", Json.str "#/definitions/id"),
              ("definitions", Json.obj [("id", Json.num 2)])]))]⟩ :=
  ⟨⟨rfl, rfl⟩,
    (C1_nested_scope_resolution [("id", Json.num 1)] [("id", Json.num 2)]
      [("$ref", Json.str "#/definitions/id")] [("$ref", Json.str "#/definitions/id")]
      [("$ref", Json.str "#/definitions/id"), ("definitions", Json.obj [("id", Json.num 1)])]
      [("$ref", Json.str "#/definitions/id"), ("definitions", Json.obj [("id", Json.num 2)])]
      rfl rfl).1,
    (C1_nested_scope_resolution [("id", Json.num 1)] [("id", Json.num 2)]
      [("$ref", Json.str "#/definitions/id")] [("$ref", Json.str "#/definitions/id")]
      [("$ref", Json.str "#/definitions/id"), ("definitions", Json.obj [("id", Json.num 1)])]
      [("$ref", Json.str "#/definitions/id"), ("definitions", Json.obj [("id", Json.num 2)])]
      rfl rfl).2⟩

/-- Claim C7, counterexample: the claim says a document that already
carries a top-level `definitions` key fails with the
SchemaHasDefinitions error regardless of pool state, including an
absent pool.  But `walkFunc` calls `makeDefinitions` *before* the
reserved-key check, so with an absent pool the walk aborts with the
missing-definitions error instead — the SchemaHasDefinitions error is
never reached. -/
theorem C7_counterexample :
    runWalk "A/definitions.json" none false "out" ⟨"", []⟩
      [⟨"A/m.json", false, "m.json", false, some [("definitions", Json.obj [])]⟩]
      = Except.error GenError.missingDefinitions
    ∧ GenError.missingDefinitions ≠ GenError.schemaHasDefinitions "m.json" :=
  ⟨rfl, by decide⟩

/-- Claim C7, amended: whenever resolution of the document's collected
references against the active pool succeeds — which covers every
populated pool containing the referenced names and the empty pool with
a reference-free document — a document with a top-level `definitions`
key fails with SchemaHasDefinitions and the whole walk hard-aborts,
whatever else remains to visit.  When `makeDefinitions` fails first
(absent pool; empty pool with references; a referenced name missing),
the walk aborts with that resolution error instead, because resolution
precedes the reserved-key check. -/
theorem C7_schemaHasDefinitions_on_resolvable (defFile : String)
    (pool : Option (List (String × Json))) (merge : Bool) (pkg : String)
    (st : WalkState) (e : Entry) (rest : List Entry)
    (doc defsOK : List (String × Json))
    (h1 : ¬(st.ignDir ≠ "" ∧ goHasPrefix e.path st.ignDir = true))
    (h2 : ¬(e.isDir = true ∧ e.hasOwnDefs = true ∧
        e.path ++ "/" ++ "definitions.json" ≠ defFile))
    (h3 : e.name ≠ "definitions.json") (h4 : extOf e.name = ".json")
    (h5 : e.content = some doc)
    (h6 : makeDefinitions pool (findReferences doc) = Except.ok defsOK)
    (h7 : (lookupA doc "definitions").isSome) :
    runWalk defFile pool merge pkg st (e :: rest)
      = Except.error (GenError.schemaHasDefinitions e.name) := by
  have hpf : processFile pool e.name doc
      = Except.error (GenError.schemaHasDefinitions e.name) := by
    simp only [processFile, h6]
    rw [if_pos h7]
  refine runWalk_step_err ?_
  rw [walkStep_schema defFile pool merge pkg st e doc e.name rfl h1 h2 h3 h4 h5, hpf]

/-- Witness for `C7_schemaHasDefinitions_on_resolvable`: an empty
loaded pool, a reference-free document carrying a `definitions` key,
and a second schema file that the abort prevents from being visited. -/
theorem C7_schemaHasDefinitions_on_resolvable_witness :
    (makeDefinitions (some [])
        (findReferences [("definitions", Json.obj [])]) = Except.ok []
      ∧ (lookupA [("definitions", Json.obj [])] "definitions").isSome)
    ∧ runWalk "A/definitions.json" (some []) false "out" ⟨"", []⟩
        [⟨"A/m.json", false, "m.json", false, some [("definitions", Json.obj [])]⟩,
         ⟨"A/other.json", false, "other.json", false, some []⟩]
        = Except.error (GenError.schemaHasDefinitions "m.json") :=
  ⟨⟨rfl, rfl⟩,
    C7_schemaHasDefinitions_on_resolvable "A/definitions.json" (some []) false "out"
      ⟨"", []⟩ ⟨"A/m.json", false, "m.json", false, some [("definitions", Json.obj [])]⟩
      [⟨"A/other.json", false, "other.json", false, some []⟩]
      [("definitions", Json.obj [])] []
      (by simp) (by simp) (by simp) rfl rfl rfl rfl⟩

/-- Claim C5, counterexample: the claim says a definitions file that
parses but lacks a `definitions` object field hard-aborts the run:
`Generate` returns that error and no schema files are processed.  In
the code, `Generate` only logs the load error — the `err` variable is
overwritten by the `filepath.Walk` call.  Here the load fails with
MissingDefinitionsKey, yet the run over a schema-free tree returns
success, and the run over a tree with one schema file proceeds to
process it and returns the *resolution* error (missing definitions),
not the load error. -/
theorem C5_counterexample :
    loadDefinitions (DefsFileState.parsed [("definitions", Json.str "notamap")])
      = Except.error LoadError.missingDefinitionsKey
    ∧ generateRun "A" (DefsFileState.parsed [("definitions", Json.str "notamap")])
        false "out" [⟨"A", true, "A", true, none⟩] = Except.ok ⟨"", []⟩
    ∧ generateRun "A" (DefsFileState.parsed [("definitions", Json.str "notamap")])
        false "out"
        [⟨"A", true, "A", true, none⟩,
         ⟨"A/m.json", false, "m.json", false, some []⟩]
      = Except.error GenError.missingDefinitions :=
  ⟨rfl, rfl, rfl⟩

/-- Claim C5, amended: every `loadDefinitions` failure — NotFound,
ParseError or MissingDefinitionsKey alike — is non-fatal and deferred:
`Generate` logs it and walks anyway with a `nil` pool.  A run whose
tree offers no schema file succeeds outright; a run that reaches a
schema file aborts there, with the missing-definitions resolution
error rather than the load error, whatever the file contains. -/
theorem C5_load_failure_deferred (root out : String) (f : DefsFileState)
    (er : LoadError) (merge : Bool) (e0 e : Entry) (rest : List Entry)
    (doc : List (String × Json))
    (hl : loadDefinitions f = Except.error er)
    (h0p : e0.path = root)
    (h0f : ¬(e0.name ≠ "definitions.json" ∧ extOf e0.name = ".json"))
    (h2 : ¬(e.isDir = true ∧ e.hasOwnDefs = true ∧
        e.path ++ "/" ++ "definitions.json" ≠ root ++ "/" ++ "definitions.json"))
    (h3 : e.name ≠ "definitions.json") (h4 : extOf e.name = ".json")
    (h5 : e.content = some doc) :
    generateRun root f merge out (e0 :: e :: rest)
      = Except.error GenError.missingDefinitions
    ∧ generateRun root f merge out [e0] = Except.ok ⟨"", []⟩ := by
  have hp : (loadDefinitions f).toOption = none := by rw [hl]; rfl
  have hstep0 : walkStep (root ++ "/" ++ "definitions.json") none merge (goBase out)
      ⟨"", []⟩ e0 = Except.ok ⟨"", []⟩ := by
    by_cases hdir : e0.isDir = true ∧ e0.hasOwnDefs = true ∧
        e0.path ++ "/" ++ "definitions.json" ≠ root ++ "/" ++ "definitions.json"
    · exact absurd (h0p ▸ hdir.2.2) (fun hc => hc rfl)
    · exact walkStep_plain _ _ _ _ _ _ (by rintro ⟨hc, -⟩; exact hc rfl) hdir h0f
  have hpf : processFile none e.name doc = Except.error GenError.missingDefinitions := rfl
  constructor
  · rw [generateRun_eq root out f merge _ none hp]
    refine runWalk_step_ok ⟨"", []⟩ hstep0 (runWalk_step_err ?_)
    rw [walkStep_schema (root ++ "/" ++ "definitions.json") none merge (goBase out)
      ⟨"", []⟩ e doc e.name rfl (by rintro ⟨hc, -⟩; exact hc rfl) h2 h3 h4 h5, hpf]
  · rw [generateRun_eq root out f merge _ none hp]
    exact runWalk_step_ok ⟨"", []⟩ hstep0 rfl

/-- Witness for `C5_load_failure_deferred`: an unparsable
`definitions.json` (ParseError, a different load failure than the
counterexample's) with a reference-free schema file beneath the root. -/
theorem C5_load_failure_deferred_witness :
    (loadDefinitions DefsFileState.invalid = Except.error LoadError.parseError
      ∧ extOf "m.json" = ".json")
    ∧ generateRun "A" DefsFileState.invalid false "out"
        [⟨"A", true, "A", true, none⟩,
         ⟨"A/m.json", false, "m.json", false, some [("type", Json.str "object")]⟩]
      = Except.error GenError.missingDefinitions
    ∧ generateRun "A" DefsFileState.invalid false "out" [⟨"A", true, "A", true, none⟩]
      = Except.ok ⟨"", []⟩ :=
  ⟨⟨rfl, rfl⟩,
    (C5_load_failure_deferred "A" "out" DefsFileState.invalid LoadError.parseError
      false ⟨"A", true, "A", true, none⟩
      ⟨"A/m.json", false, "m.json", false, some [("type", Json.str "object")]⟩ []
      [("type", Json.str "object")] rfl rfl (by decide) (by decide) (by decide) rfl rfl).1,
    (C5_load_failure_deferred "A" "out" DefsFileState.invalid LoadError.parseError
      false ⟨"A", true, "A", true, none⟩
      ⟨"A/m.json", false, "m.json", false, some [("type", Json.str "object")]⟩ []
      [("type", Json.str "object")] rfl rfl (by decide) (by decide) (by decide) rfl rfl).2⟩

/-! ## Where routed payloads can land -/

theorem mem_storePut {st : Store} {key : String × String} {v : String}
    {kv : (String × String) × String} (h : kv ∈ storePut st key v) :
    kv ∈ st ∨ kv.1 = key := by
  induction st with
  | nil =>
      right
      rw [List.mem_singleton.mp h]
  | cons hd rest ih =>
      obtain ⟨k', v'⟩ := hd
      unfold storePut at h
      split at h
      · rcases List.mem_cons.mp h with heq | hmem
        · right; rw [heq]
        · left; exact List.mem_cons_of_mem _ hmem
      · rcases List.mem_cons.mp h with heq | hmem
        · left; rw [heq]; exact List.mem_cons_self _ _
        · rcases ih hmem with h1 | h1
          · left; exact List.mem_cons_of_mem _ h1
          · right; exact h1

theorem mem_dumpToTmpDirs {merge : Bool} {pkg : String} {store : Store}
    {path data : String} {kv : (String × String) × String}
    (h : kv ∈ dumpToTmpDirs merge pkg store path data) :
    kv ∈ store ∨ kv.1 = dumpKey merge pkg path := by
  unfold dumpToTmpDirs at h
  dsimp only at h
  split at h
  · rcases List.mem_append.mp h with h1 | h1
    · left; exact h1
    · right; rw [List.mem_singleton.mp h1]
  · exact mem_storePut h

/-- A single walk step can only add blobs under the key computed from
the visited path. -/
theorem walkStep_store (defFile : String) (pool : Option (List (String × Json)))
    (merge : Bool) (pkg : String) (st : WalkState) (e : Entry) (st' : WalkState)
    (h : walkStep defFile pool merge pkg st e = Except.ok st') :
    ∀ kv ∈ st'.store, kv ∈ st.store ∨ kv.1 = dumpKey merge pkg e.path := by
  unfold walkStep at h
  split at h
  · cases h; exact fun kv hkv => Or.inl hkv
  · split at h
    · cases h; exact fun kv hkv => Or.inl hkv
    · split at h
      · split at h
        · cases h
        · split at h
          · cases h
          · cases h
            exact fun kv hkv => mem_dumpToTmpDirs hkv
      · cases h; exact fun kv hkv => Or.inl hkv

/-- Over a whole walk, every blob key traces back to a visited path. -/
theorem runWalk_store (defFile : String) (pool : Option (List (String × Json)))
    (merge : Bool) (pkg : String) :
    ∀ (entries : List Entry) (st st' : WalkState),
      runWalk defFile pool merge pkg st entries = Except.ok st' →
      ∀ kv ∈ st'.store, kv ∈ st.store
        ∨ ∃ e ∈ entries, kv.1 = dumpKey merge pkg e.path := by
  intro entries
  induction entries with
  | nil =>
      intro st st' h kv hkv
      cases h
      exact Or.inl hkv
  | cons e rest ih =>
      intro st st' h kv hkv
      rw [runWalk_cons] at h
      cases hs : walkStep defFile pool merge pkg st e with
      | error er => rw [hs] at h; cases h
      | ok st1 =>
          rw [hs] at h
          rcases ih st1 st' h kv hkv with h1 | ⟨e', he', hk⟩
          · rcases walkStep_store _ _ _ _ _ _ _ hs kv h1 with h2 | h2
            · exact Or.inl h2
            · exact Or.inr ⟨e, List.mem_cons_self _ _, h2⟩
          · exact Or.inr ⟨e', List.mem_cons_of_mem _ he', hk⟩

/-- Claim C8: every blob a successful run stores is keyed by the routing
rule of `dumpToTmpDirs`: under the "merge" policy the service is the
declared output package — the basename of the output directory — for
every file, independent of its origin; under the "separate" policy the
service is the basename of the originating file's immediate parent
directory; in both policies the inner key is the origin basename with
its `.json` suffix trimmed. -/
theorem C8_service_naming (root out : String) (f : DefsFileState) (merge : Bool)
    (entries : List Entry) (st' : WalkState)
    (h : generateRun root f merge out entries = Except.ok st') :
    ∀ kv ∈ st'.store, ∃ e ∈ entries,
      (merge = true → kv.1.1 = goBase out)
      ∧ (merge = false → kv.1.1 = goBase (goDir e.path))
      ∧ kv.1.2 = goTrimSuffix (goBase e.path) ".json" := by
  intro kv hkv
  have h' : runWalk (root ++ "/" ++ "definitions.json")
      (loadDefinitions f).toOption merge (goBase out) ⟨"", []⟩ entries
        = Except.ok st' := h
  rcases runWalk_store _ _ _ _ entries _ _ h' kv hkv with h1 | ⟨e, he, hk⟩
  · exact absurd h1 (List.not_mem_nil kv)
  · refine ⟨e, he, ?_, ?_, ?_⟩
    · intro hm
      subst hm
      rw [hk]
      rfl
    · intro hm
      subst hm
      rw [hk]
      rfl
    · rw [hk]
      cases merge <;> rfl

/-- Witness for `C8_service_naming`: a "merge" run into `out/pkgname`
files `A/svc/m.json` under service `pkgname`, not `svc`. -/
theorem C8_service_naming_witness :
    generateRun "A" (DefsFileState.parsed [("definitions", Json.obj [])]) true
      "out/pkgname"
      [⟨"A", true, "A", true, none⟩,
       ⟨"A/svc/m.json", false, "m.json", false, some [("t", Json.str "o")]⟩]
      = Except.ok ⟨"", [(("pkgname", "m"),
          serializeJson (Json.obj [("t", Json.str "o"), ("definitions", Json.obj [])]))]⟩
    ∧ ∀ kv ∈ [(("pkgname", "m"),
          serializeJson (Json.obj [("t", Json.str "o"), ("definitions", Json.obj [])]))],
        ∃ e ∈ [(⟨"A", true, "A", true, none⟩ : Entry),
               ⟨"A/svc/m.json", false, "m.json", false, some [("t", Json.str "o")]⟩],
          (true = true → kv.1.1 = goBase "out/pkgname")
          ∧ (true = false → kv.1.1 = goBase (goDir e.path))
          ∧ kv.1.2 = goTrimSuffix (goBase e.path) ".json" :=
  ⟨rfl,
    C8_service_naming "A" "out/pkgname"
      (DefsFileState.parsed [("definitions", Json.obj [])]) true
      [⟨"A", true, "A", true, none⟩,
       ⟨"A/svc/m.json", false, "m.json", false, some [("t", Json.str "o")]⟩]
      ⟨"", [(("pkgname", "m"),
          serializeJson (Json.obj [("t", Json.str "o"), ("definitions", Json.obj [])]))]⟩
      rfl⟩

/-! ## Colliding blob keys -/

theorem storeGet_append {store l : Store} {key : String × String}
    (h : storeGet store key = none) :
    storeGet (store ++ l) key = storeGet l key := by
  induction store with
  | nil => rfl
  | cons hd rest ih =>
      obtain ⟨k, v⟩ := hd
      unfold storeGet at h
      split at h
      · cases h
      · rename_i hne
        show (if k = key then some v else storeGet (rest ++ l) key) = storeGet l key
        rw [if_neg hne]
        exact ih h

theorem storeGet_storePut_self {store : Store} {key : String × String} {v : String} :
    storeGet (storePut store key v) key = some v := by
  induction store with
  | nil => simp [storePut, storeGet]
  | cons hd rest ih =>
      obtain ⟨k, v'⟩ := hd
      unfold storePut
      split
      · simp [storeGet]
      · rename_i hne
        unfold storeGet
        rw [if_neg hne]
        exact ih

/-- Claim C9, counterexample: the claim says that when two schema files
route to the same `(service, baseName)` key, the stored blob after both
writes equals exactly the later file's bytes.  `dumpToTmpDirs` opens
the existing blob file with `O_RDWR|O_CREATE` but **without**
`O_TRUNC` and writes from offset 0, so a shorter later payload leaves
the tail of the longer earlier one in place: after storing `abcdef`
and then `xy` under the same key, the blob holds `xycdef`, not `xy`. -/
theorem C9_counterexample :
    storeGet (dumpToTmpDirs false "p"
        (dumpToTmpDirs false "p" [] "a/svc/m.json" "abcdef") "b/svc/m.json" "xy")
      ("svc", "m") = some "xycdef"
    ∧ ("xycdef" : String) ≠ "xy" :=
  ⟨rfl, by decide⟩

/-- Claim C9, amended: when two payloads land under the same
`(service, baseName)` key, the stored blob after both writes is the
later payload written over the earlier one from offset 0 — the later
bytes followed by whatever tail of the earlier blob extends past them
(`overwriteBytes`); it equals exactly the later payload precisely when
the later payload is at least as long as the earlier one. -/
theorem C9_same_key_overwrite (merge : Bool) (pkg : String) (store : Store)
    (p1 p2 d1 d2 : String)
    (hkey : dumpKey merge pkg p2 = dumpKey merge pkg p1)
    (h0 : storeGet store (dumpKey merge pkg p1) = none) :
    storeGet (dumpToTmpDirs merge pkg (dumpToTmpDirs merge pkg store p1 d1) p2 d2)
        (dumpKey merge pkg p1) = some (overwriteBytes d1 d2)
    ∧ (d1.toList.length ≤ d2.toList.length → overwriteBytes d1 d2 = d2) := by
  have h1 : dumpToTmpDirs merge pkg store p1 d1
      = store ++ [(dumpKey merge pkg p1, d1)] := by
    unfold dumpToTmpDirs
    dsimp only
    rw [h0]
  have h2 : storeGet (store ++ [(dumpKey merge pkg p1, d1)]) (dumpKey merge pkg p1)
      = some d1 := by
    rw [storeGet_append h0]
    simp [storeGet]
  constructor
  · rw [h1]
    unfold dumpToTmpDirs
    dsimp only
    simp only [hkey, h2]
    exact storeGet_storePut_self
  · intro hle
    unfold overwriteBytes
    rw [List.drop_eq_nil_of_le hle]
    show d2 ++ "" = d2
    simp

/-- Witness for `C9_same_key_overwrite` on the colliding paths
`a/svc/m.json` and `b/svc/m.json` with payloads `abcdef` then `xy`. -/
theorem C9_same_key_overwrite_witness :
    (dumpKey false "p" "b/svc/m.json" = dumpKey false "p" "a/svc/m.json"
      ∧ storeGet [] (dumpKey false "p" "a/svc/m.json") = none)
    ∧ storeGet (dumpToTmpDirs false "p"
        (dumpToTmpDirs false "p" [] "a/svc/m.json" "abcdef") "b/svc/m.json" "xy")
        (dumpKey false "p" "a/svc/m.json") = some (overwriteBytes "abcdef" "xy")
    ∧ (("abcdef" : String).toList.length ≤ ("xy" : String).toList.length →
        overwriteBytes "abcdef" "xy" = "xy") :=
  ⟨⟨rfl, rfl⟩,
    (C9_same_key_overwrite false "p" [] "a/svc/m.json" "b/svc/m.json"
      "abcdef" "xy" rfl rfl).1,
    (C9_same_key_overwrite false "p" [] "a/svc/m.json" "b/svc/m.json"
      "abcdef" "xy" rfl rfl).2⟩
